import Mathlib

/-!
Verification of the Magic Formula automated stock-trading scripts
(buyPositions.js / sellPositions.js) against their natural-language
specification.

Shallow embedding conventions:
* JavaScript numbers that can carry `null` / `NaN` markers are modelled by
  the inductive type `JSVal` (`null`, `nan`, or a rational number); purely
  numeric quantities (prices, cash) are modelled by `Rat`.
* Millisecond timestamps (`Date` values) are modelled by `Int`.
* The in-place field writes performed by `computeMagicFormulaRankings` on
  its argument objects are modelled by tagging every surviving entry with
  its position in the filtered array (JS object identity) and producing the
  post-call contents of the input array explicitly (`postCallEntries`).
* JavaScript `Array.prototype.sort` (stable since ES2019) is modelled by
  the stable sort `List.insertionSort`; a comparator `c` is translated to
  the relation `le a b := (c a b <= 0)`.  For a consistent comparator the
  stable sorted permutation is unique, so any stable sorting algorithm is
  an exact model of the JS sort.
* The SQLite `holdings` table is modelled as a list of `HoldingRow`
  records; the queries of `getAcquisitionDateFromDB` /
  `updateHoldingStatus` / the buy-side INSERT are translated to list
  operations with the same observable behaviour.
-/

namespace MagicFormula

/-- Value of a JavaScript numeric field: `null`, `NaN`, or a number. -/
inductive JSVal where
  | null : JSVal
  | nan : JSVal
  | num : ℚ → JSVal
deriving DecidableEq

/-- JavaScript truthiness of a numeric value: `null`, `NaN` and `0` are
falsy, every other number is truthy.  This is the test performed by
`if (returnOnCapital && earningsYield)` in `fetchFinancialMetrics`. -/
def JSVal.truthy : JSVal → Bool
  | .null => false
  | .nan => false
  | .num q => q != 0

/-- Numeric coercion used by the JS sort comparators; `NaN` has no value. -/
def JSVal.toNumber : JSVal → Option ℚ
  | .null => some 0
  | .nan => none
  | .num q => some q

/-- A metric entry as handled by `computeMagicFormulaRankings`.  The three
rank fields start out absent and are written by the ranking function. -/
structure StockMetric where
  symbol : String
  returnOnCapital : JSVal
  earningsYield : JSVal
  eyRank : Option ℕ := none
  rocRank : Option ℕ := none
  combinedRank : Option ℕ := none
deriving DecidableEq

/-- Gate of `fetchFinancialMetrics`: a symbol's metrics are pushed into the
result array only when both parsed values are truthy
(`if (returnOnCapital && earningsYield)`). -/
def fetchFinancialMetrics (raw : List (String × JSVal × JSVal)) :
    List StockMetric :=
  raw.filterMap fun t =>
    if t.2.1.truthy && t.2.2.truthy then
      some { symbol := t.1, returnOnCapital := t.2.1, earningsYield := t.2.2 }
    else none

/-- Filter at the top of `computeMagicFormulaRankings`:
`m.returnOnCapital != null && m.earningsYield != null` (JS loose
inequality against `null`). -/
def isValidMetric (m : StockMetric) : Bool :=
  !(m.returnOnCapital == JSVal.null) && !(m.earningsYield == JSVal.null)

/-- Model of `metrics.filter((m) => m.returnOnCapital != null && m.earningsYield != null)`. -/
def validFilter (metrics : List StockMetric) : List StockMetric :=
  metrics.filter isValidMetric

/-- Position tags modelling JS object identity: the k-th element of the
filtered array is tagged with k. -/
def withIdx : ℕ → List StockMetric → List (ℕ × StockMetric)
  | _, [] => []
  | n, m :: rest => (n, m) :: withIdx (n + 1) rest

/-- Stable sort with a JS Boolean comparator relation. -/
def jsSort (le : α → α → Bool) (l : List α) : List α :=
  l.insertionSort fun a b => le a b = true

/-- Comparator semantics of `(a, b) => bValue - aValue` (descending sort):
`le a b` holds when the comparator result is `<= 0`, i.e. `bValue <= aValue`;
a `NaN` comparator result is treated as `0` by the JS sort. -/
def numDescLe (x y : Option ℚ) : Bool :=
  match x, y with
  | some a, some b => decide (b ≤ a)
  | _, _ => true

/-- Comparator of the earnings-yield sort `(a, b) => b.earningsYield - a.earningsYield`. -/
def eyLe (a b : ℕ × StockMetric) : Bool :=
  numDescLe a.2.earningsYield.toNumber b.2.earningsYield.toNumber

/-- Comparator of the return-on-capital sort `(a, b) => b.returnOnCapital - a.returnOnCapital`. -/
def rocLe (a b : ℕ × StockMetric) : Bool :=
  numDescLe a.2.returnOnCapital.toNumber b.2.returnOnCapital.toNumber

/-- Position of the entry tagged `k` in a sorted tagged list (the tag is
unique, so this is the index of that object in the sorted array). -/
def posOf (s : List (ℕ × StockMetric)) (k : ℕ) : ℕ :=
  s.findIdx (fun r => r.1 == k)

/-- Field writes `m.eyRank = ...; m.rocRank = ...; m.combinedRank = m.eyRank + m.rocRank`
performed on one surviving metric object. -/
def setRanks (m : StockMetric) (ey roc : ℕ) : StockMetric :=
  { m with eyRank := some ey, rocRank := some roc, combinedRank := some (ey + roc) }

/-- State of the surviving (filtered) metric objects after the two rank
assignment passes of `computeMagicFormulaRankings`: each object's `eyRank`
(resp. `rocRank`) is one plus its index in the copy sorted by descending
earnings yield (resp. return on capital), and `combinedRank` is their sum. -/
def assignRanks (metrics : List StockMetric) : List (ℕ × StockMetric) :=
  let idx := withIdx 0 (validFilter metrics)
  let sEY := jsSort eyLe idx
  let sROC := jsSort rocLe idx
  idx.map fun p => (p.1, setRanks p.2 (posOf sEY p.1 + 1) (posOf sROC p.1 + 1))

/-- Comparator of the final sort `(a, b) => a.combinedRank - b.combinedRank`
(ascending).  Both fields have just been assigned by the time this sort
runs, so the `getD 0` default is never exercised inside the pipeline. -/
def crLe (a b : ℕ × StockMetric) : Bool :=
  decide (a.2.combinedRank.getD 0 ≤ b.2.combinedRank.getD 0)

/-- Final sorted array of `computeMagicFormulaRankings`, with identity tags. -/
def indexedRankings (metrics : List StockMetric) : List (ℕ × StockMetric) :=
  jsSort crLe (assignRanks metrics)

/-- Return value of `computeMagicFormulaRankings`: the filtered entries,
with rank fields written, sorted by ascending combined rank. -/
def computeMagicFormulaRankings (metrics : List StockMetric) : List StockMetric :=
  (indexedRankings metrics).map (·.2)

/-- Contents of the caller's input array after `computeMagicFormulaRankings`
returns: the array itself is not reordered, but each surviving object has
had its rank fields written in place; filtered-out objects are untouched.
`k` counts the surviving entries already seen, which is exactly the
identity tag used in `assignRanks`. -/
def postCallAux (sEY sROC : List (ℕ × StockMetric)) :
    List StockMetric → ℕ → List StockMetric
  | [], _ => []
  | m :: rest, k =>
    if isValidMetric m then
      setRanks m (posOf sEY k + 1) (posOf sROC k + 1) :: postCallAux sEY sROC rest (k + 1)
    else
      m :: postCallAux sEY sROC rest k

/-- Post-call contents of the input array of `computeMagicFormulaRankings`. -/
def postCallEntries (metrics : List StockMetric) : List StockMetric :=
  let idx := withIdx 0 (validFilter metrics)
  postCallAux (jsSort eyLe idx) (jsSort rocLe idx) metrics 0

/-! ### Ledger (SQLite `holdings` table) and the sell cycle -/

/-- Status column of a holdings row: `CHECK(status IN ('active', 'sold'))`. -/
inductive HStatus where
  | active : HStatus
  | sold : HStatus
deriving DecidableEq

/-- Row of the `holdings` table.  The buy-side INSERT names only the
`symbol`, `quantity`, `acquisition_date` and `status` columns, so the
acquisition-price column (present in the server's schema) stays NULL;
it is modelled as an `Option` field.  `acquisitionDate` is the millisecond
timestamp of the stored ISO string (ISO-8601 strings of equal length
compare lexicographically exactly as their timestamps compare). -/
structure HoldingRow where
  id : ℕ
  symbol : String
  quantity : ℤ
  acquisitionDate : ℤ
  acquisitionPrice : Option ℚ := none
  status : HStatus
deriving DecidableEq

/-- Model of `getAcquisitionDateFromDB`: `SELECT acquisition_date FROM
holdings WHERE symbol = ? AND status = 'active' ORDER BY acquisition_date
ASC LIMIT 1`, i.e. the earliest acquisition date among the symbol's active
rows, or `none` when the symbol has no active row. -/
def getAcquisitionDateFromDB (db : List HoldingRow) (symbol : String) : Option ℤ :=
  ((db.filter fun r => r.symbol == symbol && r.status == HStatus.active).map
    (·.acquisitionDate)).min?

/-- Model of `updateHoldingStatus`: `UPDATE holdings SET status = 'sold'
WHERE symbol = ? AND status = 'active'`, returning the updated table and
the number of changed rows (`this.changes`). -/
def updateHoldingStatus (db : List HoldingRow) (symbol : String) :
    List HoldingRow × ℕ :=
  (db.map fun r =>
      if r.symbol == symbol && r.status == HStatus.active then
        { r with status := HStatus.sold }
      else r,
   (db.filter fun r => r.symbol == symbol && r.status == HStatus.active).length)

/-- An Alpaca position as consumed by `managePortfolio` (after the
`parseFloat` calls on `qty`, `avg_entry_price`, `current_price`). -/
structure Position where
  symbol : String
  qty : ℚ
  avgEntryPrice : ℚ
  currentPrice : ℚ
deriving DecidableEq

/-- Model of `Math.floor((today - acquisitionDate) / (1000 * 60 * 60 * 24))`:
the holding duration in whole days between two millisecond timestamps.
Lean's integer division `/` rounds toward negative infinity for a positive
divisor, which is exactly `Math.floor` of the exact quotient; the theorem
for claim C1 states this floor characterisation explicitly. -/
def holdingDuration (now acq : ℤ) : ℤ :=
  (now - acq) / 86400000

/-- Sell test of `managePortfolio`, mirroring the `if` / `else if` chain:
first the unprofitable rule, then the profitable rule. -/
def sellDecision (isProfitable : Bool) (d uDays pDays : ℤ) : Bool :=
  if !isProfitable && decide (d ≥ uDays) then true
  else if isProfitable && decide (d ≥ pDays) then true
  else false

/-- Outcome of one iteration of the `managePortfolio` loop for a position. -/
inductive SellAction where
  | skip : SellAction
  | hold : SellAction
  | sell : ℚ → Bool → SellAction
deriving DecidableEq

/-- One iteration of the `managePortfolio` loop: look up the acquisition
date (skipping the symbol when none is found), compute profitability from
the broker's average entry price, compute the holding duration, and on a
sell decision submit the position's full quantity and mark the symbol's
active rows sold.  Returns the action taken and the resulting table. -/
def processPosition (db : List HoldingRow) (pos : Position)
    (now uDays pDays : ℤ) : SellAction × List HoldingRow :=
  match getAcquisitionDateFromDB db pos.symbol with
  | none => (SellAction.skip, db)
  | some acq =>
    let isProfitable := decide (pos.currentPrice > pos.avgEntryPrice)
    let d := holdingDuration now acq
    if sellDecision isProfitable d uDays pDays then
      (SellAction.sell pos.qty isProfitable, (updateHoldingStatus db pos.symbol).1)
    else
      (SellAction.hold, db)

/-! ### Buy cycle (`executeMagicFormulaStrategy` steps 5-7 and `placeBuyOrder`) -/

/-- `investmentPerStock = portfolioValue * MAX_TOTAL_INVESTMENT_PERCENT / NUMBER_OF_STOCKS_PER_BATCH`. -/
def investmentPerStock (portfolioValue maxPercent : ℚ) (batchSize : ℤ) : ℚ :=
  portfolioValue * maxPercent / (batchSize : ℚ)

/-- `actualInvestmentPerStock = availableCash / NUMBER_OF_STOCKS_PER_BATCH`. -/
def actualInvestmentPerStock (cash : ℚ) (batchSize : ℤ) : ℚ :=
  cash / (batchSize : ℚ)

/-- `investmentAmount = Math.min(investmentPerStock, actualInvestmentPerStock)`. -/
def effectiveInvestment (portfolioValue maxPercent : ℚ) (batchSize : ℤ) (cash : ℚ) : ℚ :=
  min (investmentPerStock portfolioValue maxPercent batchSize)
    (actualInvestmentPerStock cash batchSize)

/-- `qty = Math.floor(investmentAmount / currentPrice)`. -/
def buyQuantity (investmentAmount price : ℚ) : ℤ :=
  ⌊investmentAmount / price⌋

/-- Row inserted by `placeBuyOrder`: `INSERT INTO holdings (symbol,
quantity, acquisition_date, status) VALUES (?, ?, ?, 'active')` — no
acquisition price is written. -/
def insertedHolding (id : ℕ) (symbol : String) (qty : ℤ) (now : ℤ) : HoldingRow :=
  { id := id, symbol := symbol, quantity := qty, acquisitionDate := now,
    acquisitionPrice := none, status := HStatus.active }

/-- One iteration of the buy loop for one symbol.  The quote price is
`none` when `parseFloat(quoteResponse.data[0].price)` is `NaN` (missing or
malformed); such symbols are skipped (`continue`) before any order or
ledger write, as are non-positive prices and non-positive computed
quantities.  Otherwise a market order for `qty` shares is placed and the
purchase is recorded in the holdings table. -/
def processBuySymbol (db : List HoldingRow) (symbol : String)
    (investmentAmount : ℚ) (price : Option ℚ) (now : ℤ) :
    List HoldingRow × Option (ℤ × ℚ) :=
  match price with
  | none => (db, none)
  | some p =>
    if p ≤ 0 then (db, none)
    else
      let qty := buyQuantity investmentAmount p
      if qty ≤ 0 then (db, none)
      else (db ++ [insertedHolding db.length symbol qty now], some (qty, p))

/-- The buy loop over the selected batch of symbols, threading the ledger
and collecting the orders actually placed (symbol, quantity, fill price
used for sizing). -/
def buyCycle (db : List HoldingRow) (now : ℤ) (investmentAmount : ℚ) :
    List (String × Option ℚ) → List HoldingRow × List (String × ℤ × ℚ)
  | [] => (db, [])
  | (symbol, price) :: rest =>
    match processBuySymbol db symbol investmentAmount price now with
    | (db1, none) =>
      buyCycle db1 now investmentAmount rest
    | (db1, some (qty, p)) =>
      let res := buyCycle db1 now investmentAmount rest
      (res.1, (symbol, qty, p) :: res.2)

/-- Total cost of a list of orders at the prices used to size them. -/
def totalSpend (orders : List (String × ℤ × ℚ)) : ℚ :=
  (orders.map fun o => (o.2.1 : ℚ) * o.2.2).sum

/-! ### Concrete data used in the specification's worked examples -/

/-- Projection of a metric entry onto its input fields (the fields the
ranker never writes). -/
def coreOf (m : StockMetric) : String × JSVal × JSVal :=
  (m.symbol, m.returnOnCapital, m.earningsYield)

/-- Worked-example entry A: roc 0.10, ey 0.08. -/
def exA : StockMetric :=
  { symbol := "A", returnOnCapital := JSVal.num 0.10, earningsYield := JSVal.num 0.08 }

/-- Worked-example entry B: roc 0.05, ey 0.12. -/
def exB : StockMetric :=
  { symbol := "B", returnOnCapital := JSVal.num 0.05, earningsYield := JSVal.num 0.12 }

/-- Worked-example entry C: roc 0.20, ey 0.05. -/
def exC : StockMetric :=
  { symbol := "C", returnOnCapital := JSVal.num 0.20, earningsYield := JSVal.num 0.05 }

/-- Tie pair used as a small integral instance: crossed metrics give both
entries the same combined rank. -/
def exP : StockMetric :=
  { symbol := "P", returnOnCapital := JSVal.num 2, earningsYield := JSVal.num 1 }

/-- Second element of the tie pair. -/
def exQ : StockMetric :=
  { symbol := "Q", returnOnCapital := JSVal.num 1, earningsYield := JSVal.num 2 }

/-- Entry whose metrics are numerically zero (present and numeric). -/
def zeroEntry : StockMetric :=
  { symbol := "Z", returnOnCapital := JSVal.num 0, earningsYield := JSVal.num 0 }

/-- Good entry used in the C3 witness input. -/
def exG : StockMetric :=
  { symbol := "G", returnOnCapital := JSVal.num 2, earningsYield := JSVal.num 3 }

/-- Mixed raw input for the C3 witness: one good symbol, one with missing
metrics, one NaN, one zero. -/
def rawMix : List (String × JSVal × JSVal) :=
  [("G", JSVal.num 2, JSVal.num 3), ("M", JSVal.null, JSVal.null),
   ("N", JSVal.nan, JSVal.num 1), ("Z", JSVal.num 0, JSVal.num 1)]

/-- Holding acquired at 2023-01-01T00:00:00Z (1672531200000 ms). -/
def rowX : HoldingRow :=
  { id := 0, symbol := "X", quantity := 2, acquisitionDate := 1672531200000,
    status := HStatus.active }

/-- Earlier lot of symbol S: 3 shares at timestamp 0. -/
def lotEarly : HoldingRow :=
  { id := 0, symbol := "S", quantity := 3, acquisitionDate := 0,
    status := HStatus.active }

/-- Later lot of symbol S: 5 shares bought later (re-buy before selling). -/
def lotLate : HoldingRow :=
  { id := 1, symbol := "S", quantity := 5, acquisitionDate := 1000000,
    status := HStatus.active }

/-- Broker position for S: the aggregate 8 shares, under water. -/
def posS : Position :=
  { symbol := "S", qty := 8, avgEntryPrice := 10, currentPrice := 5 }

/-! ### Helper lemmas about the ranker embedding -/

theorem jsSort_perm (le : α → α → Bool) (l : List α) : (jsSort le l).Perm l :=
  List.perm_insertionSort _ l

theorem withIdx_map_snd (n : ℕ) (l : List StockMetric) :
    (withIdx n l).map Prod.snd = l := by
  induction l generalizing n with
  | nil => rfl
  | cons m rest ih => simp [withIdx, ih]

theorem withIdx_length (n : ℕ) (l : List StockMetric) :
    (withIdx n l).length = l.length := by
  induction l generalizing n with
  | nil => rfl
  | cons m rest ih => simp [withIdx, ih]

theorem mem_withIdx_le {n : ℕ} {l : List StockMetric} {p : ℕ × StockMetric}
    (h : p ∈ withIdx n l) : n ≤ p.1 := by
  induction l generalizing n with
  | nil => simp [withIdx] at h
  | cons m rest ih =>
    simp only [withIdx, List.mem_cons] at h
    rcases h with h | h
    · simp [h]
    · exact le_trans (Nat.le_succ n) (ih h)

theorem withIdx_pairwise (n : ℕ) (l : List StockMetric) :
    (withIdx n l).Pairwise fun p q => p.1 < q.1 := by
  induction l generalizing n with
  | nil => exact List.Pairwise.nil
  | cons m rest ih =>
    refine List.pairwise_cons.mpr ⟨fun q hq => ?_, ih (n + 1)⟩
    exact lt_of_lt_of_le (Nat.lt_succ_self n) (mem_withIdx_le hq)

theorem withIdx_fst_nodup (n : ℕ) (l : List StockMetric) :
    ((withIdx n l).map Prod.fst).Nodup :=
  List.Pairwise.map Prod.fst (fun _ _ h => Nat.ne_of_lt h) (withIdx_pairwise n l)

theorem posOf_map_self :
    ∀ s : List (ℕ × StockMetric), (s.map Prod.fst).Nodup →
      (s.map fun q => posOf s q.1) = List.range s.length := by
  intro s
  induction s with
  | nil => intro _; rfl
  | cons q t ih =>
    intro h
    rw [List.map_cons, List.nodup_cons] at h
    obtain ⟨hq, ht⟩ := h
    have h0 : posOf (q :: t) q.1 = 0 := by
      simp [posOf, List.findIdx_cons]
    have hstep : ∀ r ∈ t, (fun r : ℕ × StockMetric => posOf (q :: t) r.1) r
        = (fun r : ℕ × StockMetric => posOf t r.1 + 1) r := by
      intro r hr
      have hne : (q.1 == r.1) = false := by
        refine beq_eq_false_iff_ne.mpr fun e => hq ?_
        exact e ▸ List.mem_map_of_mem Prod.fst hr
      simp [posOf, List.findIdx_cons, hne]
    rw [List.map_cons, h0, List.map_congr_left hstep]
    have hcomp : (t.map fun r : ℕ × StockMetric => posOf t r.1 + 1)
        = (t.map fun r : ℕ × StockMetric => posOf t r.1).map (· + 1) := by
      rw [List.map_map]; rfl
    rw [hcomp, ih ht, List.length_cons, List.range_succ_eq_map]

theorem map_posOf_perm_range (le : (ℕ × StockMetric) → (ℕ × StockMetric) → Bool)
    (idx : List (ℕ × StockMetric)) (h : (idx.map Prod.fst).Nodup) :
    (idx.map fun p => posOf (jsSort le idx) p.1).Perm (List.range idx.length) := by
  have hperm : (jsSort le idx).Perm idx := jsSort_perm le idx
  have hnodup : ((jsSort le idx).map Prod.fst).Nodup :=
    ((hperm.map Prod.fst).nodup_iff).mpr h
  have heq : ((jsSort le idx).map fun p => posOf (jsSort le idx) p.1)
      = List.range idx.length := by
    rw [posOf_map_self _ hnodup, hperm.length_eq]
  exact ((hperm.map _).symm).trans (heq ▸ List.Perm.refl _)

theorem assignRanks_eq (metrics : List StockMetric) :
    assignRanks metrics =
      (withIdx 0 (validFilter metrics)).map fun p =>
        (p.1, setRanks p.2
          (posOf (jsSort eyLe (withIdx 0 (validFilter metrics))) p.1 + 1)
          (posOf (jsSort rocLe (withIdx 0 (validFilter metrics))) p.1 + 1)) := rfl

theorem assignRanks_eyRank_perm (metrics : List StockMetric) :
    ((assignRanks metrics).map fun p => p.2.eyRank).Perm
      ((List.range (validFilter metrics).length).map fun k => some (k + 1)) := by
  have hn := withIdx_fst_nodup 0 (validFilter metrics)
  have hp := map_posOf_perm_range eyLe (withIdx 0 (validFilter metrics)) hn
  have heq : ((assignRanks metrics).map fun p => p.2.eyRank)
      = ((withIdx 0 (validFilter metrics)).map fun p =>
          posOf (jsSort eyLe (withIdx 0 (validFilter metrics))) p.1).map
            (fun k => some (k + 1)) := by
    rw [assignRanks_eq, List.map_map, List.map_map]
    rfl
  rw [heq, ← withIdx_length 0 (validFilter metrics)]
  exact hp.map _

theorem assignRanks_rocRank_perm (metrics : List StockMetric) :
    ((assignRanks metrics).map fun p => p.2.rocRank).Perm
      ((List.range (validFilter metrics).length).map fun k => some (k + 1)) := by
  have hn := withIdx_fst_nodup 0 (validFilter metrics)
  have hp := map_posOf_perm_range rocLe (withIdx 0 (validFilter metrics)) hn
  have heq : ((assignRanks metrics).map fun p => p.2.rocRank)
      = ((withIdx 0 (validFilter metrics)).map fun p =>
          posOf (jsSort rocLe (withIdx 0 (validFilter metrics))) p.1).map
            (fun k => some (k + 1)) := by
    rw [assignRanks_eq, List.map_map, List.map_map]
    rfl
  rw [heq, ← withIdx_length 0 (validFilter metrics)]
  exact hp.map _

theorem mem_assignRanks_shape {metrics : List StockMetric} {p : ℕ × StockMetric}
    (h : p ∈ assignRanks metrics) :
    ∃ m e r, m ∈ validFilter metrics ∧ p.2 = setRanks m e r := by
  rw [assignRanks_eq] at h
  obtain ⟨q, hq, rfl⟩ := List.mem_map.mp h
  refine ⟨q.2, _, _, ?_, rfl⟩
  have hmem := List.mem_map_of_mem Prod.snd hq
  rwa [withIdx_map_snd] at hmem

theorem computeMagicFormulaRankings_perm_assign (metrics : List StockMetric) :
    (computeMagicFormulaRankings metrics).Perm
      ((assignRanks metrics).map Prod.snd) :=
  (jsSort_perm crLe (assignRanks metrics)).map Prod.snd

theorem rankings_core_perm (metrics : List StockMetric) :
    ((computeMagicFormulaRankings metrics).map coreOf).Perm
      ((validFilter metrics).map coreOf) := by
  have h1 := (computeMagicFormulaRankings_perm_assign metrics).map coreOf
  have e2 : ((withIdx 0 (validFilter metrics)).map Prod.snd).map coreOf
      = (validFilter metrics).map coreOf := by
    rw [withIdx_map_snd]
  have e : (((assignRanks metrics).map Prod.snd).map coreOf)
      = (validFilter metrics).map coreOf := by
    rw [assignRanks_eq, List.map_map, List.map_map, ← e2, List.map_map]
    rfl
  exact h1.trans (e ▸ List.Perm.refl _)

theorem assignRanks_pairwise (metrics : List StockMetric) :
    (assignRanks metrics).Pairwise fun p q => p.1 < q.1 := by
  rw [assignRanks_eq]
  exact List.Pairwise.map _ (fun _ _ h => h) (withIdx_pairwise 0 _)

theorem pair_sublist_of_mem_of_fst_lt :
    ∀ {l : List (ℕ × StockMetric)} {x y : ℕ × StockMetric},
      (l.Pairwise fun p q => p.1 < q.1) → x ∈ l → y ∈ l → x.1 < y.1 →
      List.Sublist [x, y] l := by
  intro l
  induction l with
  | nil => intro x y _ hx; simp at hx
  | cons h t ih =>
    intro x y hp hx hy hxy
    obtain ⟨hh, ht⟩ := List.pairwise_cons.mp hp
    rcases List.mem_cons.mp hx with rfl | hxT
    · rcases List.mem_cons.mp hy with rfl | hyT
      · exact absurd hxy (lt_irrefl _)
      · exact List.Sublist.cons₂ x (List.singleton_sublist.mpr hyT)
    · rcases List.mem_cons.mp hy with rfl | hyT
      · exact absurd hxy (lt_asymm (hh x hxT))
      · exact (ih ht hxT hyT hxy).cons h

theorem truthy_shape {v : JSVal} (h : v.truthy = true) :
    ∃ q, v = JSVal.num q ∧ q ≠ 0 := by
  cases v with
  | null => simp [JSVal.truthy] at h
  | nan => simp [JSVal.truthy] at h
  | num q =>
    refine ⟨q, rfl, ?_⟩
    simpa [JSVal.truthy] using h

theorem mem_fetchFinancialMetrics {raw : List (String × JSVal × JSVal)}
    {m : StockMetric} (h : m ∈ fetchFinancialMetrics raw) :
    ∃ t ∈ raw, (t.2.1.truthy && t.2.2.truthy) = true
      ∧ m = { symbol := t.1, returnOnCapital := t.2.1, earningsYield := t.2.2 } := by
  obtain ⟨t, ht, hsome⟩ := List.mem_filterMap.mp h
  by_cases hg : (t.2.1.truthy && t.2.2.truthy) = true
  · rw [if_pos hg] at hsome
    exact ⟨t, ht, hg, (Option.some.injEq _ _ ▸ hsome).symm⟩
  · rw [if_neg hg] at hsome
    cases hsome

theorem fetch_all_valid (raw : List (String × JSVal × JSVal)) :
    validFilter (fetchFinancialMetrics raw) = fetchFinancialMetrics raw := by
  refine List.filter_eq_self.mpr fun m hm => ?_
  obtain ⟨t, _, hg, rfl⟩ := mem_fetchFinancialMetrics hm
  obtain ⟨hg1, hg2⟩ := Bool.and_eq_true_iff.mp hg
  obtain ⟨q1, e1, _⟩ := truthy_shape hg1
  obtain ⟨q2, e2, _⟩ := truthy_shape hg2
  simp [isValidMetric, e1, e2]

theorem fetch_core_eq_filter (raw : List (String × JSVal × JSVal)) :
    (fetchFinancialMetrics raw).map coreOf
      = raw.filter fun t => t.2.1.truthy && t.2.2.truthy := by
  induction raw with
  | nil => rfl
  | cons t rest ih =>
    simp only [fetchFinancialMetrics, List.filterMap_cons] at ih ⊢
    by_cases hg : (t.2.1.truthy && t.2.2.truthy) = true
    · rw [if_pos hg, List.map_cons, ih, List.filter_cons, if_pos hg]
      rfl
    · rw [if_neg hg, ih, List.filter_cons,
        if_neg hg]

/-! ### Claim theorems for the ranking operation -/

/-- C8: for every filtered ranking input of size N, the eyRank values of
the ranked output are exactly a permutation of 1..N, the rocRank values
are independently a permutation of 1..N, and every output entry satisfies
combinedRank = eyRank + rocRank. -/
theorem rank_permutation_invariant (metrics : List StockMetric) :
    ((computeMagicFormulaRankings metrics).map fun m => m.eyRank).Perm
        ((List.range (validFilter metrics).length).map fun k => some (k + 1))
    ∧ ((computeMagicFormulaRankings metrics).map fun m => m.rocRank).Perm
        ((List.range (validFilter metrics).length).map fun k => some (k + 1))
    ∧ ∀ m ∈ computeMagicFormulaRankings metrics,
        ∃ e r, m.eyRank = some e ∧ m.rocRank = some r
          ∧ m.combinedRank = some (e + r) := by
  refine ⟨?_, ?_, ?_⟩
  · have h1 := (computeMagicFormulaRankings_perm_assign metrics).map
      (fun m => m.eyRank)
    refine h1.trans ?_
    have e : (((assignRanks metrics).map Prod.snd).map fun m => m.eyRank)
        = ((assignRanks metrics).map fun p => p.2.eyRank) := by
      rw [List.map_map]
      rfl
    rw [e]
    exact assignRanks_eyRank_perm metrics
  · have h1 := (computeMagicFormulaRankings_perm_assign metrics).map
      (fun m => m.rocRank)
    refine h1.trans ?_
    have e : (((assignRanks metrics).map Prod.snd).map fun m => m.rocRank)
        = ((assignRanks metrics).map fun p => p.2.rocRank) := by
      rw [List.map_map]
      rfl
    rw [e]
    exact assignRanks_rocRank_perm metrics
  · intro m hm
    have hm2 : m ∈ (assignRanks metrics).map Prod.snd :=
      ((computeMagicFormulaRankings_perm_assign metrics).mem_iff).mp hm
    obtain ⟨p, hp, rfl⟩ := List.mem_map.mp hm2
    obtain ⟨m0, e, r, _, hshape⟩ := mem_assignRanks_shape hp
    exact ⟨e, r, by rw [hshape]; rfl, by rw [hshape]; rfl, by rw [hshape]; rfl⟩

/-- Witness for C8 on the concrete input `[exP]`. -/
theorem rank_permutation_invariant_witness :
    (((computeMagicFormulaRankings [exP]).map fun m => m.eyRank).Perm
        ((List.range (validFilter [exP]).length).map fun k => some (k + 1)))
    ∧ ∃ e r, (setRanks exP 1 1).eyRank = some e
        ∧ (setRanks exP 1 1).rocRank = some r
        ∧ (setRanks exP 1 1).combinedRank = some (e + r) :=
  ⟨(rank_permutation_invariant [exP]).1,
   (rank_permutation_invariant [exP]).2.2 (setRanks exP 1 1) (by decide)⟩

/-- C5: in the final ranked output, any two surviving entries tied on
combinedRank appear in the same relative order they had in the (filtered)
input sequence — the identity tag carried by `indexedRankings` is the
position in the filtered input; and on the spec's worked example A, B, C
all tie at combined rank 4 and come out in input order. -/
theorem combinedRank_ties_preserve_input_order :
    (∀ (metrics : List StockMetric) (i j : ℕ) (a b : StockMetric),
        (i, a) ∈ indexedRankings metrics → (j, b) ∈ indexedRankings metrics →
        i < j → a.combinedRank = b.combinedRank →
        List.Sublist [(i, a), (j, b)] (indexedRankings metrics))
    ∧ (computeMagicFormulaRankings [exA, exB, exC]).map
        (fun m => (m.symbol, m.eyRank, m.rocRank, m.combinedRank))
        = [("A", some 2, some 2, some 4), ("B", some 1, some 3, some 4),
           ("C", some 3, some 1, some 4)] := by
  constructor
  · intro metrics i j a b hia hjb hij hcr
    have hmemA : (i, a) ∈ assignRanks metrics :=
      ((jsSort_perm crLe _).mem_iff).mp hia
    have hmemB : (j, b) ∈ assignRanks metrics :=
      ((jsSort_perm crLe _).mem_iff).mp hjb
    have hpair : List.Sublist [(i, a), (j, b)] (assignRanks metrics) :=
      pair_sublist_of_mem_of_fst_lt (assignRanks_pairwise metrics) hmemA hmemB hij
    have hle : crLe (i, a) (j, b) = true := by
      simp [crLe, hcr]
    exact List.pair_sublist_insertionSort hle hpair
  · norm_num [computeMagicFormulaRankings, indexedRankings, assignRanks,
      validFilter, isValidMetric, withIdx, jsSort, eyLe, rocLe, crLe,
      numDescLe, posOf, setRanks, exA, exB, exC, JSVal.toNumber,
      List.insertionSort, List.orderedInsert, List.findIdx, List.findIdx.go]
    decide

/-- Witness for C5 on the concrete tie pair `[exP, exQ]` (both entries end
up with combined rank 3; the earlier input entry stays first). -/
theorem combinedRank_ties_preserve_input_order_witness :
    List.Sublist [(0, setRanks exP 2 1), (1, setRanks exQ 1 2)]
      (indexedRankings [exP, exQ]) :=
  combinedRank_ties_preserve_input_order.1 [exP, exQ] 0 1
    (setRanks exP 2 1) (setRanks exQ 1 2)
    (by decide) (by decide) (by decide) (by decide)

/-- C3 counterexample: an entry whose metrics are present, numeric and
numerically zero is NOT dropped by the ranking operation — its loose
`!= null` filter keeps it.  The claim, which says zero-metric entries are
dropped by the ranking operation, is therefore false as stated. -/
theorem zero_metric_not_dropped :
    (computeMagicFormulaRankings [zeroEntry]).map coreOf
      = [("Z", JSVal.num 0, JSVal.num 0)] := by
  decide

/-- C3 amended: the ranker itself drops exactly the entries with a missing
(`null`) metric; the NaN/zero exclusion happens upstream in
`fetchFinancialMetrics`, so along the program's pipeline exactly the
entries with both metrics present, numeric and non-zero survive into the
ranked output, and every survivor has non-missing, non-NaN, non-zero
metrics. -/
theorem filter_semantics :
    (∀ metrics : List StockMetric,
        ((computeMagicFormulaRankings metrics).map coreOf).Perm
          ((metrics.filter isValidMetric).map coreOf))
    ∧ ∀ raw : List (String × JSVal × JSVal),
        ((computeMagicFormulaRankings (fetchFinancialMetrics raw)).map coreOf).Perm
          (raw.filter fun t => t.2.1.truthy && t.2.2.truthy)
        ∧ ∀ m ∈ computeMagicFormulaRankings (fetchFinancialMetrics raw),
            (∃ q, m.returnOnCapital = JSVal.num q ∧ q ≠ 0)
            ∧ ∃ q, m.earningsYield = JSVal.num q ∧ q ≠ 0 := by
  constructor
  · intro metrics
    exact rankings_core_perm metrics
  · intro raw
    constructor
    · have h1 := rankings_core_perm (fetchFinancialMetrics raw)
      rw [fetch_all_valid, fetch_core_eq_filter] at h1
      exact h1
    · intro m hm
      have hm2 : m ∈ (assignRanks (fetchFinancialMetrics raw)).map Prod.snd :=
        ((computeMagicFormulaRankings_perm_assign _).mem_iff).mp hm
      obtain ⟨p, hp, rfl⟩ := List.mem_map.mp hm2
      obtain ⟨m0, e, r, hmem0, hshape⟩ := mem_assignRanks_shape hp
      rw [fetch_all_valid] at hmem0
      obtain ⟨t, _, hg, rfl⟩ := mem_fetchFinancialMetrics hmem0
      obtain ⟨hg1, hg2⟩ := Bool.and_eq_true_iff.mp hg
      obtain ⟨q1, e1, hq1⟩ := truthy_shape hg1
      obtain ⟨q2, e2, hq2⟩ := truthy_shape hg2
      constructor
      · exact ⟨q1, by rw [hshape]; exact e1, hq1⟩
      · exact ⟨q2, by rw [hshape]; exact e2, hq2⟩

/-- Witness for the amended C3 on a concrete mixed input: one good entry,
one with missing metrics, one NaN, one zero. -/
theorem filter_semantics_witness :
    ((computeMagicFormulaRankings (fetchFinancialMetrics rawMix)).map coreOf).Perm
      (rawMix.filter fun t => t.2.1.truthy && t.2.2.truthy)
    ∧ (∃ q, (setRanks exG 1 1).returnOnCapital = JSVal.num q ∧ q ≠ 0) :=
  ⟨(filter_semantics.2 rawMix).1,
   ((filter_semantics.2 rawMix).2 (setRanks exG 1 1) (by decide)).1⟩

/-- C7 counterexample: the ranking operation writes the rank fields into
the surviving input objects — after the call the input entry has
`eyRank = some 1` instead of its original `none`, so the input is not left
unchanged. -/
theorem rank_mutates_input :
    postCallEntries [exP] = [setRanks exP 1 1]
    ∧ postCallEntries [exP] ≠ [exP] := by
  constructor
  · decide
  · decide

/-- C7 amended: the ranking operation does not reorder or resize the input
sequence and never writes the symbol or metric fields; entries dropped by
the filter are untouched, and each surviving entry is changed only by
having its three rank fields written.  (The operation is total — it raises
no exception; the `InvalidInputError` of the spec has no counterpart in
the code.) -/
theorem rank_frame_effects (metrics : List StockMetric) :
    List.Forall₂ (fun old new =>
        new.symbol = old.symbol
        ∧ new.returnOnCapital = old.returnOnCapital
        ∧ new.earningsYield = old.earningsYield
        ∧ (isValidMetric old = false → new = old)
        ∧ (isValidMetric old = true → ∃ e r, new = setRanks old e r))
      metrics (postCallEntries metrics) := by
  rw [postCallEntries]
  generalize jsSort eyLe (withIdx 0 (validFilter metrics)) = sEY
  generalize jsSort rocLe (withIdx 0 (validFilter metrics)) = sROC
  generalize 0 = k
  induction metrics generalizing k with
  | nil => exact List.Forall₂.nil
  | cons m rest ih =>
    by_cases h : isValidMetric m = true
    · rw [postCallAux, if_pos h]
      refine List.Forall₂.cons ?_ (ih _)
      refine ⟨rfl, rfl, rfl, ?_, ?_⟩
      · intro hfalse; rw [h] at hfalse; cases hfalse
      · intro _; exact ⟨_, _, rfl⟩
    · rw [postCallAux, if_neg h]
      refine List.Forall₂.cons ?_ (ih _)
      exact ⟨rfl, rfl, rfl, fun _ => rfl,
        fun htrue => absurd htrue h⟩

/-- Witness for the amended C7 on the concrete input `[exP, exB]`. -/
theorem rank_frame_effects_witness :
    List.Forall₂ (fun old new =>
        new.symbol = old.symbol
        ∧ new.returnOnCapital = old.returnOnCapital
        ∧ new.earningsYield = old.earningsYield
        ∧ (isValidMetric old = false → new = old)
        ∧ (isValidMetric old = true → ∃ e r, new = setRanks old e r))
      [exP, exB] (postCallEntries [exP, exB]) :=
  rank_frame_effects [exP, exB]

/-! ### Helper lemmas for the sell cycle and the ledger -/

theorem sellDecision_or (isProfitable : Bool) (d uDays pDays : ℤ) :
    sellDecision isProfitable d uDays pDays
      = ((!isProfitable && decide (d ≥ uDays))
          || (isProfitable && decide (d ≥ pDays))) := by
  cases isProfitable <;> simp [sellDecision]

theorem rowMatches_iff (r : HoldingRow) (sym : String) :
    ((r.symbol == sym && r.status == HStatus.active) = true)
      ↔ (r.symbol = sym ∧ r.status = HStatus.active) := by
  simp [Bool.and_eq_true]

theorem updateHoldingStatus_fst (db : List HoldingRow) (sym : String) :
    (updateHoldingStatus db sym).1
      = db.map fun r =>
          if (r.symbol == sym && r.status == HStatus.active) = true then
            { r with status := HStatus.sold }
          else r := by
  rfl

theorem update_forall2 (db : List HoldingRow) (sym : String) :
    List.Forall₂ (fun old new =>
        (old.symbol = sym ∧ old.status = HStatus.active →
          new = { old with status := HStatus.sold })
        ∧ (¬(old.symbol = sym ∧ old.status = HStatus.active) → new = old))
      db (updateHoldingStatus db sym).1 := by
  rw [updateHoldingStatus_fst]
  induction db with
  | nil => exact List.Forall₂.nil
  | cons r t ih =>
    rw [List.map_cons]
    refine List.Forall₂.cons ?_ ih
    by_cases hc : (r.symbol == sym && r.status == HStatus.active) = true
    · rw [if_pos hc]
      exact ⟨fun _ => rfl, fun hn => absurd ((rowMatches_iff r sym).mp hc) hn⟩
    · rw [if_neg hc]
      exact ⟨fun hp => absurd ((rowMatches_iff r sym).mpr hp) hc, fun _ => rfl⟩

theorem lookup_after_update (db : List HoldingRow) (sym : String) :
    getAcquisitionDateFromDB (updateHoldingStatus db sym).1 sym = none := by
  rw [updateHoldingStatus_fst, getAcquisitionDateFromDB]
  simp only [List.min?_eq_none_iff, List.map_eq_nil_iff, List.filter_eq_nil_iff]
  intro r hr
  obtain ⟨r0, _, rfl⟩ := List.mem_map.mp hr
  by_cases hc : (r0.symbol == sym && r0.status == HStatus.active) = true
  · rw [if_pos hc]
    simp
  · rw [if_neg hc]
    simpa using hc

theorem processPosition_sell_inv {db : List HoldingRow} {pos : Position}
    {now uDays pDays : ℤ} {q : ℚ} {b : Bool}
    (h : (processPosition db pos now uDays pDays).1 = SellAction.sell q b) :
    q = pos.qty ∧ b = decide (pos.currentPrice > pos.avgEntryPrice)
      ∧ (processPosition db pos now uDays pDays).2
          = (updateHoldingStatus db pos.symbol).1 := by
  rcases hl : getAcquisitionDateFromDB db pos.symbol with _ | acq
  · simp [processPosition, hl] at h
  · simp only [processPosition, hl] at h ⊢
    by_cases hs : sellDecision (decide (pos.currentPrice > pos.avgEntryPrice))
        (holdingDuration now acq) uDays pDays = true
    · rw [if_pos hs] at h ⊢
      exact ⟨(SellAction.sell.inj h).1.symm, (SellAction.sell.inj h).2.symm, rfl⟩
    · rw [if_neg hs] at h
      cases h

theorem processPosition_snd_cases (db : List HoldingRow) (pos : Position)
    (now uDays pDays : ℤ) :
    (processPosition db pos now uDays pDays).2 = db
    ∨ (processPosition db pos now uDays pDays).2
        = (updateHoldingStatus db pos.symbol).1 := by
  rcases hl : getAcquisitionDateFromDB db pos.symbol with _ | acq
  · simp only [processPosition, hl]
    exact Or.inl trivial
  · simp only [processPosition, hl]
    by_cases hs : sellDecision (decide (pos.currentPrice > pos.avgEntryPrice))
        (holdingDuration now acq) uDays pDays = true
    · rw [if_pos hs]
      exact Or.inr rfl
    · rw [if_neg hs]
      exact Or.inl rfl

theorem sold_preserved_update (db : List HoldingRow) (sym : String) :
    List.Forall₂ (fun old new => old.status = HStatus.sold → new.status = HStatus.sold)
      db (updateHoldingStatus db sym).1 := by
  refine (update_forall2 db sym).imp ?_
  intro a b h hsold
  by_cases hc : a.symbol = sym ∧ a.status = HStatus.active
  · rw [h.1 hc]
  · rw [h.2 hc]
    exact hsold

theorem sold_preserved_process (db : List HoldingRow) (pos : Position)
    (now uDays pDays : ℤ) :
    List.Forall₂ (fun old new => old.status = HStatus.sold → new.status = HStatus.sold)
      db (processPosition db pos now uDays pDays).2 := by
  rcases processPosition_snd_cases db pos now uDays pDays with h | h
  · rw [h]
    exact List.forall₂_same.mpr fun x _ hs => hs
  · rw [h]
    exact sold_preserved_update db pos.symbol

theorem lookup_eq_min {db : List HoldingRow} {sym : String} {d : ℤ}
    (h : getAcquisitionDateFromDB db sym = some d) :
    (∃ r ∈ db, r.symbol = sym ∧ r.status = HStatus.active ∧ r.acquisitionDate = d)
    ∧ ∀ r ∈ db, r.symbol = sym → r.status = HStatus.active →
        d ≤ r.acquisitionDate := by
  rw [getAcquisitionDateFromDB] at h
  constructor
  · have hmem := List.min?_mem (fun a b : ℤ => min_choice a b) h
    obtain ⟨r, hr, rfl⟩ := List.mem_map.mp hmem
    have hf := List.mem_filter.mp hr
    exact ⟨r, hf.1, ((rowMatches_iff r sym).mp hf.2).1,
      ((rowMatches_iff r sym).mp hf.2).2, rfl⟩
  · intro r hr hsym hact
    have hall := (List.le_min?_iff (fun a b c : ℤ => le_min_iff) h).mp (le_refl d)
    exact hall _ (List.mem_map_of_mem _
      (List.mem_filter.mpr ⟨hr, (rowMatches_iff r sym).mpr ⟨hsym, hact⟩⟩))

/-! ### Claim theorems for the sell cycle -/

/-- C1: profitability is the strict comparison current > entry (equality
counts as unprofitable), the holding duration is the floor of the exact
millisecond difference divided by one day, the sell decision is exactly
(not profitable and days >= U) or (profitable and days >= P), and for a
holding acquired 2023-01-01 with U = P = 365 and price below entry the
position is sold at 2024-01-01 (365 days) but not at 2023-12-31 (364). -/
theorem sell_rule_correct :
    (∀ now acq : ℤ, holdingDuration now acq
        = ⌊((now - acq : ℤ) : ℚ) / (86400000 : ℚ)⌋)
    ∧ (∀ (isProfitable : Bool) (d uDays pDays : ℤ),
        sellDecision isProfitable d uDays pDays
          = ((!isProfitable && decide (d ≥ uDays))
              || (isProfitable && decide (d ≥ pDays))))
    ∧ (∀ c p : ℚ, c = p → decide (c > p) = false)
    ∧ (∀ (db : List HoldingRow) (pos : Position) (now uDays pDays acq : ℤ),
        getAcquisitionDateFromDB db pos.symbol = some acq →
        processPosition db pos now uDays pDays
          = (if ((!decide (pos.currentPrice > pos.avgEntryPrice)
                  && decide (holdingDuration now acq ≥ uDays))
                || (decide (pos.currentPrice > pos.avgEntryPrice)
                  && decide (holdingDuration now acq ≥ pDays))) = true
             then (SellAction.sell pos.qty
                     (decide (pos.currentPrice > pos.avgEntryPrice)),
                   (updateHoldingStatus db pos.symbol).1)
             else (SellAction.hold, db)))
    ∧ ∀ q c p : ℚ, c < p →
        (processPosition [rowX] ⟨"X", q, p, c⟩ 1704067200000 365 365).1
            = SellAction.sell q false
        ∧ (processPosition [rowX] ⟨"X", q, p, c⟩ 1703980800000 365 365).1
            = SellAction.hold := by
  refine ⟨?_, ?_, ?_, ?_, ?_⟩
  · intro now acq
    rw [holdingDuration,
      show (86400000 : ℚ) = ((86400000 : ℕ) : ℚ) by norm_num,
      Rat.floor_intCast_div_natCast]
    norm_num
  · intro isProfitable d uDays pDays
    exact sellDecision_or isProfitable d uDays pDays
  · intro c p h
    subst h
    simp
  · intro db pos now uDays pDays acq hl
    simp only [processPosition, hl, sellDecision_or]
  · intro q c p h
    have hnp : ¬ ((p : ℚ) < c) := not_lt.mpr h.le
    constructor
    · simp [processPosition, getAcquisitionDateFromDB, rowX, sellDecision,
        holdingDuration, updateHoldingStatus, List.min?, hnp]
    · simp [processPosition, getAcquisitionDateFromDB, rowX, sellDecision,
        holdingDuration, updateHoldingStatus, List.min?, hnp]

/-- Witness for C1 (last conjunct) at entry 10, current 5, quantity 2. -/
theorem sell_rule_correct_witness :
    (processPosition [rowX] ⟨"X", 2, 10, 5⟩ 1704067200000 365 365).1
        = SellAction.sell 2 false
    ∧ (processPosition [rowX] ⟨"X", 2, 10, 5⟩ 1703980800000 365 365).1
        = SellAction.hold :=
  sell_rule_correct.2.2.2.2 2 5 10 (by decide)

/-- C2 counterexample: with two active lots for S (quantities 3 and 5,
acquired at times 0 and 1000000) and the broker position holding the
aggregate 8 shares under water, a sell pass liquidates quantity 8 — not
the earliest lot's 3 — and transitions BOTH rows to sold.  The claim,
which predicts a sale of quantity 3 touching only the earliest row, is
false as stated. -/
theorem fifo_lot_claim_fails :
    processPosition [lotEarly, lotLate] posS 86400000 1 1
      = (SellAction.sell 8 false,
         [{ lotEarly with status := HStatus.sold },
          { lotLate with status := HStatus.sold }])
    ∧ processPosition [lotEarly, lotLate] posS 86400000 1 1
        ≠ (SellAction.sell 3 false,
           [{ lotEarly with status := HStatus.sold }, lotLate]) := by
  exact ⟨by decide, by decide⟩

/-- C2 amended: the evaluation does select the earliest acquisition date
among the symbol's active rows (FIFO applies to the age computation
only), but a sell decision liquidates the broker position's entire
quantity and transitions EVERY active row of that symbol to sold; rows of
other symbols and already-sold rows are unchanged. -/
theorem fifo_selection_and_liquidation :
    (∀ (db : List HoldingRow) (sym : String) (d : ℤ),
        getAcquisitionDateFromDB db sym = some d →
        (∃ r ∈ db, r.symbol = sym ∧ r.status = HStatus.active
          ∧ r.acquisitionDate = d)
        ∧ ∀ r ∈ db, r.symbol = sym → r.status = HStatus.active →
            d ≤ r.acquisitionDate)
    ∧ (∀ (db : List HoldingRow) (pos : Position) (now uDays pDays : ℤ)
        (q : ℚ) (b : Bool),
        (processPosition db pos now uDays pDays).1 = SellAction.sell q b →
        q = pos.qty
        ∧ (processPosition db pos now uDays pDays).2
            = (updateHoldingStatus db pos.symbol).1)
    ∧ ∀ (db : List HoldingRow) (sym : String),
        List.Forall₂ (fun old new =>
          (old.symbol = sym ∧ old.status = HStatus.active →
            new = { old with status := HStatus.sold })
          ∧ (¬(old.symbol = sym ∧ old.status = HStatus.active) → new = old))
        db (updateHoldingStatus db sym).1 := by
  refine ⟨?_, ?_, ?_⟩
  · intro db sym d h
    exact lookup_eq_min h
  · intro db pos now uDays pDays q b h
    exact ⟨(processPosition_sell_inv h).1, (processPosition_sell_inv h).2.2⟩
  · intro db sym
    exact update_forall2 db sym

/-- Witness for the amended C2 on the two-lot database. -/
theorem fifo_selection_and_liquidation_witness :
    ((∃ r ∈ [lotEarly, lotLate], r.symbol = "S" ∧ r.status = HStatus.active
        ∧ r.acquisitionDate = 0)
      ∧ ∀ r ∈ [lotEarly, lotLate], r.symbol = "S" →
          r.status = HStatus.active → (0 : ℤ) ≤ r.acquisitionDate)
    ∧ (8 : ℚ) = posS.qty
    ∧ (processPosition [lotEarly, lotLate] posS 86400000 1 1).2
        = (updateHoldingStatus [lotEarly, lotLate] posS.symbol).1 :=
  ⟨fifo_selection_and_liquidation.1 [lotEarly, lotLate] "S" 0 (by decide),
   (fifo_selection_and_liquidation.2.1 [lotEarly, lotLate] posS 86400000 1 1
      8 false (by decide)).1,
   (fifo_selection_and_liquidation.2.1 [lotEarly, lotLate] posS 86400000 1 1
      8 false (by decide)).2⟩

/-- C6: once sold, a holding is terminal — after the update no active row
remains for the symbol, a second pass over the same data skips the symbol
(no second sell), and no ledger operation ever turns a sold row back to
active (status updates preserve sold, buy inserts leave existing rows
unchanged). -/
theorem sold_is_terminal :
    (∀ (db : List HoldingRow) (sym : String),
        getAcquisitionDateFromDB (updateHoldingStatus db sym).1 sym = none)
    ∧ (∀ (db : List HoldingRow) (pos : Position) (now now2 uDays pDays : ℤ)
        (q : ℚ) (b : Bool),
        (processPosition db pos now uDays pDays).1 = SellAction.sell q b →
        processPosition (processPosition db pos now uDays pDays).2 pos
            now2 uDays pDays
          = (SellAction.skip, (processPosition db pos now uDays pDays).2))
    ∧ (∀ (db : List HoldingRow) (sym : String),
        List.Forall₂ (fun old new =>
          old.status = HStatus.sold → new.status = HStatus.sold)
          db (updateHoldingStatus db sym).1)
    ∧ (∀ (db : List HoldingRow) (pos : Position) (now uDays pDays : ℤ),
        List.Forall₂ (fun old new =>
          old.status = HStatus.sold → new.status = HStatus.sold)
          db (processPosition db pos now uDays pDays).2)
    ∧ ∀ (db : List HoldingRow) (sym : String) (inv : ℚ) (price : Option ℚ)
        (now : ℤ),
        (processBuySymbol db sym inv price now).1.take db.length = db := by
  refine ⟨?_, ?_, ?_, ?_, ?_⟩
  · intro db sym
    exact lookup_after_update db sym
  · intro db pos now now2 uDays pDays q b h
    have h2 := (processPosition_sell_inv h).2.2
    revert h2
    generalize (processPosition db pos now uDays pDays).2 = db2
    intro h2
    have hnone : getAcquisitionDateFromDB db2 pos.symbol = none := by
      rw [h2]
      exact lookup_after_update db pos.symbol
    rw [processPosition, hnone]
  · intro db sym
    exact sold_preserved_update db sym
  · intro db pos now uDays pDays
    exact sold_preserved_process db pos now uDays pDays
  · intro db sym inv price now
    rcases price with _ | p
    · rw [processBuySymbol, List.take_length]
    · simp only [processBuySymbol]
      by_cases hp : p ≤ 0
      · rw [if_pos hp, List.take_length]
      · rw [if_neg hp]
        by_cases hq : buyQuantity inv p ≤ 0
        · rw [if_pos hq, List.take_length]
        · rw [if_neg hq]
          exact List.take_left db _

/-- Witness for C6 on the two-lot database: a sell fires, and the second
pass skips. -/
theorem sold_is_terminal_witness :
    processPosition (processPosition [lotEarly, lotLate] posS 86400000 1 1).2
        posS 86400001 1 1
      = (SellAction.skip, (processPosition [lotEarly, lotLate] posS 86400000 1 1).2) :=
  sold_is_terminal.2.1 [lotEarly, lotLate] posS 86400000 86400001 1 1 8 false
    (by decide)

/-! ### Helper lemmas for the buy cycle -/

theorem processBuySymbol_rows {db : List HoldingRow} {sym : String}
    {inv : ℚ} {price : Option ℚ} {now : ℤ} {r : HoldingRow}
    (h : r ∈ (processBuySymbol db sym inv price now).1) :
    r ∈ db ∨ (r.acquisitionPrice = none ∧ r.status = HStatus.active) := by
  rcases price with _ | p
  · exact Or.inl h
  · simp only [processBuySymbol] at h
    by_cases hp : p ≤ 0
    · rw [if_pos hp] at h
      exact Or.inl h
    · rw [if_neg hp] at h
      by_cases hq : buyQuantity inv p ≤ 0
      · rw [if_pos hq] at h
        exact Or.inl h
      · rw [if_neg hq] at h
        rcases List.mem_append.mp h with hdb | hnew
        · exact Or.inl hdb
        · rw [List.mem_singleton.mp hnew]
          exact Or.inr ⟨rfl, rfl⟩

theorem buyCycle_rows {now : ℤ} {inv : ℚ} :
    ∀ (stocks : List (String × Option ℚ)) (db : List HoldingRow),
      ∀ r ∈ (buyCycle db now inv stocks).1,
        r ∈ db ∨ (r.acquisitionPrice = none ∧ r.status = HStatus.active) := by
  intro stocks
  induction stocks with
  | nil => intro db r hr; exact Or.inl hr
  | cons s rest ih =>
    intro db r hr
    obtain ⟨sym, price⟩ := s
    rcases hpb : processBuySymbol db sym inv price now with ⟨db1, ord⟩
    have hr1 : r ∈ (buyCycle db1 now inv rest).1 := by
      rcases ord with _ | o
      · simpa only [buyCycle, hpb] using hr
      · simpa only [buyCycle, hpb] using hr
    rcases ih db1 r hr1 with hdb1 | hgood
    · have := processBuySymbol_rows (show r ∈ (processBuySymbol db sym inv price now).1 by
        rw [hpb]; exact hdb1)
      exact this
    · exact Or.inr hgood

theorem lookup_congr {db db2 : List HoldingRow} (sym : String)
    (hf : List.Forall₂ (fun x y => x.symbol = y.symbol ∧ x.status = y.status
      ∧ x.acquisitionDate = y.acquisitionDate) db db2) :
    getAcquisitionDateFromDB db sym = getAcquisitionDateFromDB db2 sym := by
  rw [getAcquisitionDateFromDB, getAcquisitionDateFromDB]
  have heq : ((db.filter fun r => r.symbol == sym && r.status == HStatus.active).map
        (·.acquisitionDate))
      = ((db2.filter fun r => r.symbol == sym && r.status == HStatus.active).map
        (·.acquisitionDate)) := by
    induction hf with
    | nil => rfl
    | cons h hf ih =>
      rw [List.filter_cons, List.filter_cons]
      rename_i a b l1 l2
      have hcond : (a.symbol == sym && a.status == HStatus.active)
          = (b.symbol == sym && b.status == HStatus.active) := by
        rw [h.1, h.2.1]
      rw [← hcond]
      by_cases hc : (a.symbol == sym && a.status == HStatus.active) = true
      · simp only [hc, if_true, List.map_cons, h.2.2, ih]
      · simp only [hc, Bool.false_eq_true, if_false, ih]
  rw [heq]

/-! ### Claim theorems for the buy cycle and persistence -/

/-- C10: every holding the buy cycle persists carries no acquisition price
(the INSERT writes only symbol, quantity, date and the active status), and
the sell cycle's profitability flag comes from the broker position's
average entry price — the decision never reads a ledger-stored
acquisition price (any change confined to the acquisition-price column
leaves the decision unchanged). -/
theorem holdings_persist_without_price :
    (∀ (db : List HoldingRow) (now : ℤ) (inv : ℚ)
        (stocks : List (String × Option ℚ)),
        ∀ r ∈ (buyCycle db now inv stocks).1,
          r ∈ db ∨ (r.acquisitionPrice = none ∧ r.status = HStatus.active))
    ∧ (∀ (db : List HoldingRow) (pos : Position) (now uDays pDays : ℤ)
        (q : ℚ) (b : Bool),
        (processPosition db pos now uDays pDays).1 = SellAction.sell q b →
        b = decide (pos.currentPrice > pos.avgEntryPrice))
    ∧ ∀ (db db2 : List HoldingRow) (pos : Position) (now uDays pDays : ℤ),
        List.Forall₂ (fun x y => x.symbol = y.symbol ∧ x.status = y.status
          ∧ x.acquisitionDate = y.acquisitionDate) db db2 →
        (processPosition db pos now uDays pDays).1
          = (processPosition db2 pos now uDays pDays).1 := by
  refine ⟨?_, ?_, ?_⟩
  · intro db now inv stocks r hr
    exact buyCycle_rows stocks db r hr
  · intro db pos now uDays pDays q b h
    exact (processPosition_sell_inv h).2.1
  · intro db db2 pos now uDays pDays hf
    have hl := lookup_congr pos.symbol hf
    rw [processPosition, processPosition, hl]
    rcases h2 : getAcquisitionDateFromDB db2 pos.symbol with _ | acq
    · rfl
    · by_cases hs : sellDecision (decide (pos.currentPrice > pos.avgEntryPrice))
          (holdingDuration now acq) uDays pDays = true
      · simp only [hs, if_true]
      · simp only [hs, Bool.false_eq_true, if_false]

/-- Witness for C10: a one-symbol buy cycle writes a priceless active row,
and the sell flag equals the broker comparison on the two-lot database. -/
theorem holdings_persist_without_price_witness :
    (lotEarly ∈ [lotEarly]
      ∨ (lotEarly.acquisitionPrice = none ∧ lotEarly.status = HStatus.active))
    ∧ false = decide (posS.currentPrice > posS.avgEntryPrice) :=
  ⟨holdings_persist_without_price.1 [lotEarly] 5 10 [("A", none)]
      lotEarly (by decide),
   holdings_persist_without_price.2.1 [lotEarly, lotLate] posS 86400000 1 1
      8 false (by decide)⟩

/-- C4: the per-symbol budget is the minimum of the percent-of-portfolio
budget and the cash-constrained budget, the order quantity is the floor of
budget over price, invalid prices and non-positive quantities are skipped
with no order and no ledger write, and on the worked inputs (portfolio
100000, percent 0.1, batch 5, cash 6000, price 60) the quantity is 20. -/
theorem allocator_correct :
    (∀ (portfolioValue maxPercent : ℚ) (batchSize : ℤ) (cash : ℚ),
        effectiveInvestment portfolioValue maxPercent batchSize cash
          = min (portfolioValue * maxPercent / (batchSize : ℚ))
              (cash / (batchSize : ℚ)))
    ∧ (∀ inv price : ℚ, buyQuantity inv price = ⌊inv / price⌋)
    ∧ (∀ (db : List HoldingRow) (sym : String) (inv p : ℚ) (now : ℤ),
        0 < p → 0 < buyQuantity inv p →
        processBuySymbol db sym inv (some p) now
          = (db ++ [insertedHolding db.length sym (buyQuantity inv p) now],
             some (buyQuantity inv p, p)))
    ∧ (∀ (db : List HoldingRow) (sym : String) (inv : ℚ) (price : Option ℚ)
        (now : ℤ),
        (price = none ∨ ∃ p, price = some p ∧ (p ≤ 0 ∨ buyQuantity inv p ≤ 0)) →
        processBuySymbol db sym inv price now = (db, none))
    ∧ effectiveInvestment 100000 0.1 5 6000 = 1200
    ∧ buyQuantity 1200 60 = 20 := by
  refine ⟨?_, ?_, ?_, ?_, ?_, ?_⟩
  · intro portfolioValue maxPercent batchSize cash
    rfl
  · intro inv price
    rfl
  · intro db sym inv p now hp hq
    simp only [processBuySymbol]
    rw [if_neg (not_le.mpr hp), if_neg (not_le.mpr hq)]
  · intro db sym inv price now h
    rcases h with rfl | ⟨p, rfl, hcase⟩
    · rfl
    · rcases hcase with hp | hq
      · simp only [processBuySymbol]
        rw [if_pos hp]
      · by_cases hp : p ≤ 0
        · simp only [processBuySymbol]
          rw [if_pos hp]
        · simp only [processBuySymbol]
          rw [if_neg hp, if_pos hq]
  · norm_num [effectiveInvestment, investmentPerStock, actualInvestmentPerStock]
  · rw [buyQuantity, Int.floor_eq_iff]
    norm_num

/-- Witness for C4: an order branch at price 1 and budget 20 (quantity
20), and a skip branch at a missing price. -/
theorem allocator_correct_witness :
    processBuySymbol [] "A" 20 (some 1) 0
        = ([insertedHolding 0 "A" (buyQuantity 20 1) 0],
           some (buyQuantity 20 1, 1))
    ∧ processBuySymbol [] "A" 20 none 0 = ([], none) :=
  ⟨allocator_correct.2.2.1 [] "A" 20 1 0 (by decide)
      (by simp [buyQuantity]),
   allocator_correct.2.2.2.1 [] "A" 20 none 0 (Or.inl rfl)⟩

theorem buyCycle_spend_le (now : ℤ) (inv : ℚ) :
    ∀ (stocks : List (String × Option ℚ)) (db : List HoldingRow),
      totalSpend (buyCycle db now inv stocks).2
        ≤ (stocks.length : ℚ) * max inv 0 := by
  intro stocks
  induction stocks with
  | nil =>
    intro db
    simp [buyCycle, totalSpend]
  | cons s rest ih =>
    intro db
    obtain ⟨sym, price⟩ := s
    have hmax : (0 : ℚ) ≤ max inv 0 := le_max_right inv 0
    have hlen : ((rest.length : ℚ)) * max inv 0
        ≤ (((sym, price) :: rest).length : ℚ) * max inv 0 := by
      apply mul_le_mul_of_nonneg_right _ hmax
      push_cast [List.length_cons]
      linarith
    rcases price with _ | p
    · have hred : buyCycle db now inv ((sym, none) :: rest)
          = buyCycle db now inv rest := by
        simp only [buyCycle, processBuySymbol]
      rw [hred]
      exact le_trans (ih db) hlen
    · by_cases hp : p ≤ 0
      · have hred : buyCycle db now inv ((sym, some p) :: rest)
            = buyCycle db now inv rest := by
          simp only [buyCycle, processBuySymbol]
          rw [if_pos hp]
        rw [hred]
        exact le_trans (ih db) hlen
      · by_cases hq : buyQuantity inv p ≤ 0
        · have hred : buyCycle db now inv ((sym, some p) :: rest)
              = buyCycle db now inv rest := by
            simp only [buyCycle, processBuySymbol]
            rw [if_neg hp, if_pos hq]
          rw [hred]
          exact le_trans (ih db) hlen
        · have hp' : (0 : ℚ) < p := not_le.mp hp
          have hred : buyCycle db now inv ((sym, some p) :: rest)
              = ((buyCycle (db ++ [insertedHolding db.length sym
                    (buyQuantity inv p) now]) now inv rest).1,
                 (sym, buyQuantity inv p, p)
                   :: (buyCycle (db ++ [insertedHolding db.length sym
                        (buyQuantity inv p) now]) now inv rest).2) := by
            simp only [buyCycle, processBuySymbol]
            rw [if_neg hp, if_neg hq]
          rw [hred]
          have hsum : totalSpend ((sym, buyQuantity inv p, p)
                :: (buyCycle (db ++ [insertedHolding db.length sym
                      (buyQuantity inv p) now]) now inv rest).2)
              = ((buyQuantity inv p : ℤ) : ℚ) * p
                + totalSpend (buyCycle (db ++ [insertedHolding db.length sym
                    (buyQuantity inv p) now]) now inv rest).2 := by
            rw [totalSpend, totalSpend, List.map_cons, List.sum_cons]
          rw [hsum]
          have hqp : ((buyQuantity inv p : ℤ) : ℚ) * p ≤ max inv 0 := by
            have hfl : ((buyQuantity inv p : ℤ) : ℚ) ≤ inv / p :=
              Int.floor_le _
            have hmul : ((buyQuantity inv p : ℤ) : ℚ) * p ≤ (inv / p) * p :=
              mul_le_mul_of_nonneg_right hfl hp'.le
            rw [div_mul_cancel₀ inv (ne_of_gt hp')] at hmul
            exact le_trans hmul (le_max_left inv 0)
          have htail := ih (db ++ [insertedHolding db.length sym
            (buyQuantity inv p) now])
          have : ((buyQuantity inv p : ℤ) : ℚ) * p
              + totalSpend (buyCycle (db ++ [insertedHolding db.length sym
                  (buyQuantity inv p) now]) now inv rest).2
              ≤ max inv 0 + (rest.length : ℚ) * max inv 0 :=
            add_le_add hqp htail
          refine le_trans this ?_
          push_cast [List.length_cons]
          ring_nf
          linarith

/-- C9: with a positive batch size, at most batchSize symbols, and a
non-negative cash snapshot, the total intended spend of one buy cycle
(the sum of quantity times sizing price over the orders placed) is at
most the snapshot's cash. -/
theorem batch_spend_bounded (db : List HoldingRow)
    (stocks : List (String × Option ℚ)) (portfolioValue maxPercent : ℚ)
    (batchSize : ℤ) (cash : ℚ) (now : ℤ)
    (hB : 0 < batchSize) (hlen : (stocks.length : ℤ) ≤ batchSize)
    (hcash : 0 ≤ cash) :
    totalSpend (buyCycle db now
        (effectiveInvestment portfolioValue maxPercent batchSize cash)
        stocks).2
      ≤ cash := by
  have hBQ : (0 : ℚ) < (batchSize : ℚ) := by exact_mod_cast hB
  have h1 := buyCycle_spend_le now
    (effectiveInvestment portfolioValue maxPercent batchSize cash) stocks db
  have h2 : effectiveInvestment portfolioValue maxPercent batchSize cash
      ≤ cash / (batchSize : ℚ) := min_le_right _ _
  have h3 : max (effectiveInvestment portfolioValue maxPercent batchSize cash) 0
      ≤ cash / (batchSize : ℚ) :=
    max_le h2 (div_nonneg hcash hBQ.le)
  have h4 : (stocks.length : ℚ) ≤ (batchSize : ℚ) := by exact_mod_cast hlen
  have h5 : (stocks.length : ℚ)
        * max (effectiveInvestment portfolioValue maxPercent batchSize cash) 0
      ≤ (batchSize : ℚ) * (cash / (batchSize : ℚ)) :=
    mul_le_mul h4 h3 (le_max_right _ _) hBQ.le
  have h6 : (batchSize : ℚ) * (cash / (batchSize : ℚ)) = cash := by
    rw [mul_comm, div_mul_cancel₀ cash (ne_of_gt hBQ)]
  exact le_trans h1 (le_trans h5 (le_of_eq h6))

/-- Witness for C9 with batch size 1, one missing-price symbol and zero
cash. -/
theorem batch_spend_bounded_witness :
    totalSpend (buyCycle [] 0 (effectiveInvestment 0 0 1 0)
        [("A", none)]).2 ≤ 0 :=
  batch_spend_bounded [] [("A", none)] 0 0 1 0 0 (by decide) (by decide)
    (by decide)

end MagicFormula
